import Mathlib

-- Verification development for the EasyTED repository (src/easyted/ted.py):
-- shallow embedding of its string transforms, depth-limited tree rendering and
-- argument validation, together with spec-modelled components (bracketed-text
-- parsing and the ordered tree edit distance engine) for the parts the module
-- delegates to external libraries.

/-- Embeds the runtime class of a Python value as far as calculate_ted's
isinstance checks distinguish them: a str, an int, or anything else. -/
inductive PyVal where
  | str : String → PyVal
  | int : Int → PyVal
  | other : PyVal
deriving DecidableEq

/-- Error kinds surfaced by the embedded code: Python TypeError raised by
calculate_ted's validation, and the FormatError kind of the spec for
malformed bracketed text. -/
inductive TedErr where
  | typeError : String → TedErr
  | formatError : String → TedErr
deriving DecidableEq

def TedErr.isTypeErr : TedErr → Bool
  | .typeError _ => true
  | _ => false

def PyVal.isStr : PyVal → Bool
  | .str _ => true
  | _ => false

def PyVal.isInt : PyVal → Bool
  | .int _ => true
  | _ => false

def PyVal.isNegInt : PyVal → Bool
  | .int n => decide (n < 0)
  | _ => false

/-- Embeds the validation prologue of calculate_ted (ted.py lines 163-166):
TypeError when sent1 or sent2 is not a str, and TypeError when depth is not a
str or int, or is an int below 0.  Returns the raised error, none when
validation passes. -/
def calcTedValidate (sent1 sent2 depth : PyVal) : Option TedErr :=
  if !sent1.isStr || !sent2.isStr then
    some (TedErr.typeError "Both sent1 and sent2 must be strings.")
  else if !(depth.isStr || depth.isInt) || depth.isNegInt then
    some (TedErr.typeError "Depth must be full or a non-negative integer.")
  else
    none

/-- Embeds line 174 of ted.py: max_depth = None if depth == full else depth. -/
def maxDepthChoice (depth : PyVal) : Option PyVal :=
  if depth = PyVal.str "full" then none else some depth

/-- Embeds the renderer selection of ted.py lines 176-177: the depth-limited
renderer nltk_tree_to_n_bracket_string is used exactly when max_depth is not
None. -/
def usesDepthLimited (depth : PyVal) : Bool :=
  (maxDepthChoice depth).isSome

/-- Character class of the label regex in remove_non_terminal_labels:
an uppercase ASCII letter or a dollar sign. -/
def isUpperDollar (c : Char) : Bool :=
  (decide ('A' ≤ c) && decide (c ≤ 'Z')) || c == '$'

/-- Python regex whitespace class over the ASCII inputs this code handles. -/
def isPyWs (c : Char) : Bool :=
  c == ' ' || c == '\t' || c == '\n' || c == '\r' || c == '\x0b' || c == '\x0c'

/-- One match attempt of the regex label pattern directly after an opening
parenthesis: a nonempty greedy run of [A-Z$] characters followed by a single
space.  Returns the remainder after the space on success. -/
def munch (cs : List Char) : Option (List Char) :=
  match cs.takeWhile isUpperDollar, cs.dropWhile isUpperDollar with
  | [], _ => none
  | _ :: _, d :: rest => if d = ' ' then some rest else none
  | _ :: _, [] => none

/-- Fuelled scanner for re.sub applied to the pattern backslash-open-paren
[A-Z$]+ space with replacement an opening parenthesis: leftmost
non-overlapping matches, scanning resumes after each match, replacement text
is not rescanned.  With fuel at least the length of the input this is the
substitution itself. -/
def stripLabelsF : Nat → List Char → List Char
  | 0, cs => cs
  | _ + 1, [] => []
  | fuel + 1, c :: rest =>
    if c = '(' then
      match munch rest with
      | some kept => '(' :: stripLabelsF fuel kept
      | none => '(' :: stripLabelsF fuel rest
    else c :: stripLabelsF fuel rest

/-- Embeds the first re.sub of remove_non_terminal_labels (ted.py line 53). -/
def stripLabels (cs : List Char) : List Char :=
  stripLabelsF cs.length cs

/-- Embeds the second re.sub of remove_non_terminal_labels (ted.py line 54):
replacing every whitespace run by the empty string removes exactly the
whitespace characters. -/
def filterWs (cs : List Char) : List Char :=
  cs.filter (fun c => !isPyWs c)

/-- Embeds remove_non_terminal_labels (ted.py lines 43-55) on character
lists. -/
def removeLabelsL (cs : List Char) : List Char :=
  filterWs (stripLabels cs)

/-- Embeds remove_non_terminal_labels (ted.py lines 43-55). -/
def removeNonTerminalLabels (s : String) : String :=
  String.mk (removeLabelsL s.data)

/-- Embeds Python str.replace for single-character needle and replacement. -/
def pyReplace (a b : Char) (cs : List Char) : List Char :=
  cs.map (fun c => if c = a then b else c)

/-- Embeds clean_string (ted.py lines 96-108) on character lists: label and
whitespace removal, then replacing every closing parenthesis by a closing
brace and every opening parenthesis by an opening brace. -/
def cleanStringL (cs : List Char) : List Char :=
  pyReplace '(' '\x7b' (pyReplace ')' '\x7d' (removeLabelsL cs))

/-- Embeds clean_string (ted.py lines 96-108). -/
def cleanString (s : String) : String :=
  String.mk (cleanStringL s.data)

/-- Character map sending each parenthesis to the corresponding brace and
fixing every other character. -/
def parenSwap (c : Char) : Char :=
  if c = '(' then '\x7b' else if c = ')' then '\x7d' else c

mutual
/-- Embeds the shape of an NLTK tree as consumed by ted.py: an internal node
carries a label and an ordered forest of children; a leaf carries a terminal
token string. -/
inductive NTree where
  | leaf : String → NTree
  | node : String → NForest → NTree
deriving DecidableEq
/-- Ordered forest of NLTK trees (the children list of a node). -/
inductive NForest where
  | nil : NForest
  | cons : NTree → NForest → NForest
deriving DecidableEq
end

mutual
/-- Embeds NLTK Tree.height: a bare leaf has height 1, a node has height one
more than the greatest height among its children (0 for no children). -/
def NTree.height : NTree → Nat
  | .leaf _ => 1
  | .node _ cs => 1 + cs.heightMax
/-- Greatest height among the members of a forest, 0 for the empty forest. -/
def NForest.heightMax : NForest → Nat
  | .nil => 0
  | .cons t ts => max t.height ts.heightMax
end

mutual
/-- Embeds NLTK Tree.leaves: the ordered terminal tokens below a tree. -/
def NTree.leaves : NTree → List String
  | .leaf s => [s]
  | .node _ cs => cs.leavesAll
/-- Ordered terminal tokens below every member of a forest. -/
def NForest.leavesAll : NForest → List String
  | .nil => []
  | .cons t ts => t.leaves ++ ts.leavesAll
end

def NForest.isNil : NForest → Bool
  | .nil => true
  | .cons _ _ => false

mutual
/-- Number of leaves and nodes of an NLTK tree, used as an induction measure
for facts about the renderer. -/
def NTree.sizeN : NTree → Nat
  | .leaf _ => 1
  | .node _ cs => 1 + cs.sizeN
/-- Total size of an NLTK forest. -/
def NForest.sizeN : NForest → Nat
  | .nil => 0
  | .cons t ts => t.sizeN + ts.sizeN
end

/-- Embeds the truncation guard of nltk_tree_to_n_bracket_string (ted.py line
84): max_depth is not None and current_depth > max_depth. -/
def truncates (maxD : Option Nat) (cur : Nat) : Bool :=
  match maxD with
  | some d => decide (d < cur)
  | none => false

mutual
/-- Embeds nltk_tree_to_n_bracket_string (ted.py lines 72-94).  A truncated
or falsy tree yields the empty string; a node of height above 2 renders its
children recursively one level deeper; otherwise the node renders its leaves
joined by single spaces.  A bare nonempty leaf reaching this function makes
Python raise AttributeError at tree.label(), embedded as none. -/
def NTree.nB : NTree → Option Nat → Nat → Option String
  | .leaf s, maxD, cur =>
      if truncates maxD cur || s == "" then some "" else none
  | .node l cs, maxD, cur =>
      if truncates maxD cur || cs.isNil then some ""
      else if 2 < (NTree.node l cs).height then
        match NForest.nBKids cs maxD (cur + 1) with
        | some body => some ("(" ++ l ++ " " ++ body ++ ")")
        | none => none
      else some ("(" ++ l ++ " " ++ String.intercalate " " (NTree.node l cs).leaves ++ ")")
/-- Concatenation of the rendered children in order, none as soon as one
child raises. -/
def NForest.nBKids : NForest → Option Nat → Nat → Option String
  | .nil, _, _ => some ""
  | .cons t ts, maxD, cur =>
      match NTree.nB t maxD cur, NForest.nBKids ts maxD cur with
      | some a, some b => some (a ++ b)
      | _, _ => none
end

/-- First example tree of the depth-0 scenario: (S (NP (DT a)) (VP (V b))). -/
def exTreeB : NTree :=
  .node "S" (.cons (.node "NP" (.cons (.node "DT" (.cons (.leaf "a") .nil)) .nil))
    (.cons (.node "VP" (.cons (.node "V" (.cons (.leaf "b") .nil)) .nil)) .nil))

/-- Second example tree of the depth-0 scenario: (S (NP (DT a)) (VP (V c))). -/
def exTreeC : NTree :=
  .node "S" (.cons (.node "NP" (.cons (.node "DT" (.cons (.leaf "a") .nil)) .nil))
    (.cons (.node "VP" (.cons (.node "V" (.cons (.leaf "c") .nil)) .nil)) .nil))

mutual
/-- Modelled from the spec: the ordered labeled tree consumed by the edit
distance engine of section 4.3 (the apted library realising the engine is not
under src/): a node carries a label and an ordered forest of children. -/
inductive PTree where
  | node : String → PForest → PTree
deriving DecidableEq
/-- Ordered forest of engine trees. -/
inductive PForest where
  | nil : PForest
  | cons : PTree → PForest → PForest
deriving DecidableEq
end

/-- Concatenation of two forests in order. -/
def PForest.append : PForest → PForest → PForest
  | .nil, G => G
  | .cons t ts, G => .cons t (ts.append G)

mutual
/-- Number of nodes of an engine tree. -/
def PTree.size : PTree → Nat
  | .node _ cs => 1 + cs.size
/-- Total number of nodes of a forest. -/
def PForest.size : PForest → Nat
  | .nil => 0
  | .cons t ts => t.size + ts.size
end

/-- Modelled from the spec: the default rename cost of section 3, zero when
the labels are equal and one otherwise. -/
def rcost (a b : String) : Nat :=
  if a = b then 0 else 1

/-- Modelled from the spec: the forest edit distance recurrence of section
4.3 under unit insert and delete costs, written with a fuel argument so that
it is structurally recursive; one unit of fuel is spent per recurrence step,
and every step removes at least one node, so fuel covering the total node
count computes the recurrence exactly.  Deleting the leftmost root promotes
its children into the forest; inserting mirrors this on the right; matching
the two leftmost roots pays the rename cost and recurs on the two child
forests and the two remainders. -/
def fdistFuel : Nat → PForest → PForest → Nat
  | 0, _, _ => 0
  | _ + 1, .nil, .nil => 0
  | fuel + 1, .cons (.node _ cs) F, .nil =>
      fdistFuel fuel (cs.append F) .nil + 1
  | fuel + 1, .nil, .cons (.node _ cs) G =>
      fdistFuel fuel .nil (cs.append G) + 1
  | fuel + 1, .cons (.node l₁ c₁) F, .cons (.node l₂ c₂) G =>
      min (fdistFuel fuel (c₁.append F) (.cons (.node l₂ c₂) G) + 1)
        (min (fdistFuel fuel (.cons (.node l₁ c₁) F) (c₂.append G) + 1)
          (fdistFuel fuel c₁ c₂ + fdistFuel fuel F G + rcost l₁ l₂))

/-- Modelled from the spec: the ordered forest edit distance of section 4.3
with the default unit cost model, obtained by running the recurrence with
sufficient fuel. -/
def fdist (F G : PForest) : Nat :=
  fdistFuel (F.size + G.size) F G

/-- Modelled from the spec: the ordered-tree edit model of sections 3 and
4.3, as a cost-annotated transformation relation between forests.  del
deletes the leftmost root, promoting its children in place (cost 1); ins
inserts a root above a prefix of the right forest, mirrored as consuming it
(cost 1); sub aligns the two leftmost roots, renaming one label into the
other (cost rcost) and transforming the child forests and the remainders.
Operations preserve ancestor order and left-to-right sibling order, and a
derivation applies them in canonical left-to-right, top-down order. -/
inductive EditScript : PForest → PForest → Nat → Prop where
  | nil : EditScript .nil .nil 0
  | del {l : String} {cs F G : PForest} {c : Nat} :
      EditScript (cs.append F) G c → EditScript (.cons (.node l cs) F) G (c + 1)
  | ins {l : String} {cs F G : PForest} {c : Nat} :
      EditScript F (cs.append G) c → EditScript F (.cons (.node l cs) G) (c + 1)
  | sub {l₁ l₂ : String} {c₁ c₂ F G : PForest} {k₁ k₂ : Nat} :
      EditScript c₁ c₂ k₁ → EditScript F G k₂ →
      EditScript (.cons (.node l₁ c₁) F) (.cons (.node l₂ c₂) G)
        (k₁ + k₂ + rcost l₁ l₂)

/-- Tokens of the bracketed tree notation of spec section 4.2. -/
inductive Tok where
  | opn : Tok
  | cls : Tok
  | word : String → Tok
deriving DecidableEq

/-- Character admissible inside a bare token: not a parenthesis and not
whitespace. -/
def isTokChar (c : Char) : Bool :=
  !(c == '(' || c == ')' || isPyWs c)

/-- Fuelled tokenizer for the bracketed notation: parentheses are delimiters,
whitespace separates and is otherwise insignificant, maximal runs of other
characters are bare tokens. -/
def tokenizeF : Nat → List Char → List Tok
  | 0, _ => []
  | _ + 1, [] => []
  | fuel + 1, c :: rest =>
    if c = '(' then Tok.opn :: tokenizeF fuel rest
    else if c = ')' then Tok.cls :: tokenizeF fuel rest
    else if isPyWs c then tokenizeF fuel rest
    else
      Tok.word (String.mk ((c :: rest).takeWhile isTokChar)) ::
        tokenizeF fuel ((c :: rest).dropWhile isTokChar)

/-- Tokenizer wrapper with fuel covering the input length. -/
def tokenize (s : String) : List Tok :=
  tokenizeF s.data.length s.data

mutual
/-- Modelled from the spec: the recursive descent for the grammar of section
4.2, tree := open LABEL (tree | TOKEN)+ close (the repository delegates
parsing to nltk Tree.fromstring, which is not under src/).  Rejects a missing
label after an opening parenthesis, an absent child list, and unbalanced
delimiters. -/
def parseTreeF : Nat → List Tok → Except TedErr (NTree × List Tok)
  | 0, _ => .error (.formatError "input too deeply nested")
  | fuel + 1, Tok.opn :: Tok.word lab :: rest =>
      match parseKidsF fuel rest with
      | .error e => .error e
      | .ok (NForest.nil, _) => .error (.formatError "node with no children")
      | .ok (NForest.cons k ks, Tok.cls :: rest₂) => .ok (NTree.node lab (NForest.cons k ks), rest₂)
      | .ok (NForest.cons _ _, _) => .error (.formatError "unbalanced delimiters")
  | _ + 1, Tok.opn :: _ => .error (.formatError "missing label after opening parenthesis")
  | _ + 1, _ => .error (.formatError "expected opening parenthesis")
/-- Children sequence: bare tokens become leaves, parenthesised subtrees
recurse; stops before a closing parenthesis or at the end of input. -/
def parseKidsF : Nat → List Tok → Except TedErr (NForest × List Tok)
  | 0, _ => .error (.formatError "input too deeply nested")
  | fuel + 1, Tok.word w :: rest =>
      match parseKidsF fuel rest with
      | .ok (ks, rest₂) => .ok (NForest.cons (NTree.leaf w) ks, rest₂)
      | .error e => .error e
  | fuel + 1, Tok.opn :: rest =>
      match parseTreeF fuel (Tok.opn :: rest) with
      | .ok (t, rest₂) =>
        match parseKidsF fuel rest₂ with
        | .ok (ks, rest₃) => .ok (NForest.cons t ks, rest₃)
        | .error e => .error e
      | .error e => .error e
  | _ + 1, toks => .ok (NForest.nil, toks)
end

/-- Modelled from the spec: parse(text) of section 4.2 — tokenize, demand one
complete tree spanning the whole input, fail with a FormatError on empty
input, unbalanced delimiters or a missing label. -/
def parseText (s : String) : Except TedErr NTree :=
  match tokenize s with
  | [] => .error (.formatError "empty input")
  | t :: ts =>
    match parseTreeF (2 * (t :: ts).length + 2) (t :: ts) with
    | .ok (tr, []) => .ok tr
    | .ok (_, _ :: _) => .error (.formatError "unbalanced delimiters")
    | .error e => .error e

/-- Decides whether an Except value is a FormatError. -/
def isFormatErr : Except TedErr NTree → Bool
  | .error (.formatError _) => true
  | _ => false

/-- Modelled from the spec: the parser of the skeleton form of section 6,
with braces as the structural delimiters (the repository delegates this to
apted helpers Tree.from_text, which is not under src/).  Parses a sequence of
brace trees and returns it with the unconsumed remainder. -/
def skelSeqF : Nat → List Char → Option (PForest × List Char)
  | 0, _ => none
  | fuel + 1, '\x7b' :: rest =>
      let lab := rest.takeWhile (fun c => !(c == '\x7b' || c == '\x7d'))
      let rest₁ := rest.dropWhile (fun c => !(c == '\x7b' || c == '\x7d'))
      match skelSeqF fuel rest₁ with
      | some (kids, '\x7d' :: rest₂) =>
        match skelSeqF fuel rest₂ with
        | some (sibs, rest₃) => some (.cons (.node (String.mk lab) kids) sibs, rest₃)
        | none => none
      | _ => none
  | _ + 1, cs => some (.nil, cs)

/-- Modelled from the spec: parse of a complete skeleton string into one
engine tree. -/
def skelParse (s : String) : Option PTree :=
  match skelSeqF (2 * s.data.length + 2) s.data with
  | some (PForest.cons t PForest.nil, []) => some t
  | _ => none

/-- The depth-limited branch of calculate_ted (ted.py lines 176-184) given
the two already-parsed constituency trees: render each tree to the requested
depth, clean both strings, parse the skeletons and take the edit distance;
none when the renderer raises or a skeleton does not parse to one tree. -/
def tedDepthLimited (t₁ t₂ : NTree) (d : Nat) : Option Nat :=
  (NTree.nB t₁ (some d) 0).bind fun s₁ =>
    (NTree.nB t₂ (some d) 0).bind fun s₂ =>
      (skelParse (cleanString s₁)).bind fun p₁ =>
        (skelParse (cleanString s₂)).bind fun p₂ =>
          some (fdist (PForest.cons p₁ PForest.nil) (PForest.cons p₂ PForest.nil))

-- Theorems.  Helper lemmas first, then one theorem per claim together with
-- its witnesses and counterexamples.

theorem takeWhile_all_append (p : Char → Bool) (lab post : List Char)
    (hall : ∀ c ∈ lab, p c = true) (hsp : p ' ' = false) :
    (lab ++ ' ' :: post).takeWhile p = lab ∧ (lab ++ ' ' :: post).dropWhile p = ' ' :: post := by
  induction lab with
  | nil =>
    constructor
    · simp [List.takeWhile, hsp]
    · simp [List.dropWhile, hsp]
  | cons a l ih =>
    have ha : p a = true := hall a (List.mem_cons_self a l)
    have ih2 := ih (fun c hc => hall c (List.mem_cons_of_mem a hc))
    constructor
    · simp [List.takeWhile, ha, ih2.1]
    · simp [List.dropWhile, ha, ih2.2]

theorem munch_lab (lab post : List Char) (hne : lab ≠ [])
    (hall : ∀ c ∈ lab, isUpperDollar c = true) :
    munch (lab ++ ' ' :: post) = some post := by
  obtain ⟨htake, hdrop⟩ := takeWhile_all_append isUpperDollar lab post hall (by decide)
  unfold munch
  rw [htake, hdrop]
  cases lab with
  | nil => exact absurd rfl hne
  | cons a l => simp

theorem munch_eq_none (cs : List Char) (h : ' ' ∉ cs) : munch cs = none := by
  unfold munch
  cases htake : cs.takeWhile isUpperDollar with
  | nil => rfl
  | cons a l =>
    cases hdrop : cs.dropWhile isUpperDollar with
    | nil => rfl
    | cons d rest =>
      have hd : d ≠ ' ' := by
        intro hd
        apply h
        have hsplit := @List.takeWhile_append_dropWhile _ isUpperDollar cs
        rw [htake, hdrop] at hsplit
        rw [← hsplit, hd]
        exact List.mem_append_right _ (List.mem_cons_self _ _)
      simp [hd]

theorem munch_length (cs kept : List Char) (h : munch cs = some kept) :
    kept.length + 2 ≤ cs.length := by
  unfold munch at h
  cases htake : cs.takeWhile isUpperDollar with
  | nil => rw [htake] at h; exact absurd h (by simp)
  | cons a l =>
    cases hdrop : cs.dropWhile isUpperDollar with
    | nil => rw [htake, hdrop] at h; exact absurd h (by simp)
    | cons d rest =>
      rw [htake, hdrop] at h
      have h2 : (if d = ' ' then some rest else none) = some kept := h
      by_cases hd : d = ' '
      · rw [if_pos hd] at h2
        have hk : rest = kept := by injection h2
        subst hk
        have hsplit := @List.takeWhile_append_dropWhile _ isUpperDollar cs
        rw [htake, hdrop] at hsplit
        have hlen := congrArg List.length hsplit
        simp [List.length_append] at hlen
        omega
      · rw [if_neg hd] at h2
        exact absurd h2 (by simp)

theorem stripLabelsF_congr : ∀ f₁ f₂ cs, cs.length ≤ f₁ → cs.length ≤ f₂ →
    stripLabelsF f₁ cs = stripLabelsF f₂ cs := by
  intro f₁
  induction f₁ with
  | zero =>
    intro f₂ cs h₁ _
    have hcs : cs = [] := List.eq_nil_of_length_eq_zero (Nat.le_zero.mp h₁)
    subst hcs
    cases f₂ <;> rfl
  | succ f ih =>
    intro f₂ cs h₁ h₂
    cases f₂ with
    | zero =>
      have hcs : cs = [] := List.eq_nil_of_length_eq_zero (Nat.le_zero.mp h₂)
      subst hcs
      rfl
    | succ g =>
      cases cs with
      | nil => rfl
      | cons c rest =>
        have hrest : rest.length ≤ f := by simp at h₁; omega
        have hrest2 : rest.length ≤ g := by simp at h₂; omega
        by_cases hc : c = '('
        · subst hc
          have hstepf : stripLabelsF (f + 1) ('(' :: rest) =
              (match munch rest with
               | some kept => '(' :: stripLabelsF f kept
               | none => '(' :: stripLabelsF f rest) := rfl
          have hstepg : stripLabelsF (g + 1) ('(' :: rest) =
              (match munch rest with
               | some kept => '(' :: stripLabelsF g kept
               | none => '(' :: stripLabelsF g rest) := rfl
          rw [hstepf, hstepg]
          cases hm : munch rest with
          | some kept =>
            have hkept := munch_length rest kept hm
            show '(' :: stripLabelsF f kept = '(' :: stripLabelsF g kept
            exact congrArg _ (ih g kept (by omega) (by omega))
          | none =>
            show '(' :: stripLabelsF f rest = '(' :: stripLabelsF g rest
            exact congrArg _ (ih g rest hrest hrest2)
        · have hstepf : stripLabelsF (f + 1) (c :: rest) = c :: stripLabelsF f rest := by
            simp only [stripLabelsF, if_neg hc]
          have hstepg : stripLabelsF (g + 1) (c :: rest) = c :: stripLabelsF g rest := by
            simp only [stripLabelsF, if_neg hc]
          rw [hstepf, hstepg, ih g rest hrest hrest2]

theorem stripLabels_cons (c : Char) (rest : List Char) :
    stripLabels (c :: rest) =
      if c = '(' then
        match munch rest with
        | some kept => '(' :: stripLabels kept
        | none => '(' :: stripLabels rest
      else c :: stripLabels rest := by
  show stripLabelsF ((c :: rest).length) (c :: rest) = _
  simp only [List.length_cons]
  by_cases hc : c = '('
  · subst hc
    rw [if_pos rfl]
    have hstep : stripLabelsF (rest.length + 1) ('(' :: rest) =
        (match munch rest with
         | some kept => '(' :: stripLabelsF rest.length kept
         | none => '(' :: stripLabelsF rest.length rest) := rfl
    rw [hstep]
    cases hm : munch rest with
    | some kept =>
      have hkept := munch_length rest kept hm
      show '(' :: stripLabelsF rest.length kept = '(' :: stripLabels kept
      unfold stripLabels
      rw [stripLabelsF_congr rest.length kept.length kept (by omega) (by omega)]
    | none => rfl
  · rw [if_neg hc]
    have hstep : stripLabelsF (rest.length + 1) (c :: rest) = c :: stripLabelsF rest.length rest := by
      simp only [stripLabelsF, if_neg hc]
    rw [hstep]
    rfl

theorem stripLabels_of_no_space : ∀ cs : List Char, ' ' ∉ cs → stripLabels cs = cs := by
  intro cs
  induction cs with
  | nil => intro _; rfl
  | cons c rest ih =>
    intro h
    have hr : ' ' ∉ rest := fun hm => h (List.mem_cons_of_mem _ hm)
    have hc2 : stripLabels rest = rest := ih hr
    rw [stripLabels_cons]
    by_cases hc : c = '('
    · rw [if_pos hc, munch_eq_none rest hr, hc2, hc]
    · rw [if_neg hc, hc2]

theorem not_ws_of_mem_filterWs (cs : List Char) (c : Char) (h : c ∈ filterWs cs) :
    isPyWs c = false := by
  unfold filterWs at h
  have := List.of_mem_filter h
  simpa using this

theorem removeLabelsL_idem (cs : List Char) :
    removeLabelsL (removeLabelsL cs) = removeLabelsL cs := by
  unfold removeLabelsL
  have h1 : ' ' ∉ filterWs (stripLabels cs) := by
    intro hmem
    have := not_ws_of_mem_filterWs _ _ hmem
    simp [isPyWs] at this
  rw [stripLabels_of_no_space _ h1]
  unfold filterWs
  rw [List.filter_filter]
  simp

/-- C7 counterexample: the label S matches the uppercase pattern and stands
immediately after an opening parenthesis in the input, yet label stripping
keeps it, because the regex of the source additionally demands a space after
the label and here an opening parenthesis follows instead. -/
theorem strip_keeps_unspaced_label :
    removeNonTerminalLabels "(S(NP a))" = "(S(a))" := by decide

/-- C7 amended: label stripping removes every nonempty [A-Z$] label that
immediately follows an opening parenthesis and is immediately followed by a
space, together with that space, and applying the stripping a second time
changes nothing. -/
theorem strip_spaced_labels_and_idem :
    (∀ lab post : List Char, lab ≠ [] → (∀ c ∈ lab, isUpperDollar c = true) →
      stripLabels ('(' :: (lab ++ ' ' :: post)) = '(' :: stripLabels post) ∧
    ∀ s : String, removeNonTerminalLabels (removeNonTerminalLabels s) = removeNonTerminalLabels s := by
  constructor
  · intro lab post hne hall
    rw [stripLabels_cons, if_pos rfl, munch_lab lab post hne hall]
  · intro s
    show String.mk (removeLabelsL (String.mk (removeLabelsL s.data)).data) = _
    show String.mk (removeLabelsL (removeLabelsL s.data)) = _
    rw [removeLabelsL_idem]
    rfl

/-- C7 witness: the spaced label NP is removed, and stripping the already
stripped string changes nothing. -/
theorem strip_spaced_labels_and_idem_witness :
    stripLabels ('(' :: (['N', 'P'] ++ ' ' :: ['x', ')'])) = '(' :: stripLabels ['x', ')'] ∧
      removeNonTerminalLabels (removeNonTerminalLabels "(S a)") = removeNonTerminalLabels "(S a)" :=
  ⟨strip_spaced_labels_and_idem.1 ['N', 'P'] ['x', ')'] (by decide) (by decide),
    strip_spaced_labels_and_idem.2 "(S a)"⟩

theorem pyReplace_pair_eq_map_parenSwap : ∀ cs : List Char,
    pyReplace '(' '\x7b' (pyReplace ')' '\x7d' cs) = cs.map parenSwap := by
  intro cs
  induction cs with
  | nil => rfl
  | cons c rest ih =>
    show (if (if c = ')' then '\x7d' else c) = '(' then '\x7b' else (if c = ')' then '\x7d' else c)) ::
        pyReplace '(' '\x7b' (pyReplace ')' '\x7d' rest) = parenSwap c :: rest.map parenSwap
    rw [ih]
    by_cases h1 : c = ')'
    · subst h1; rfl
    · by_cases h2 : c = '('
      · subst h2; rfl
      · simp [parenSwap, h1, h2]

/-- C8: the skeleton string produced by clean_string contains no parenthesis
character and no whitespace character, and arises from the stripped string by
mapping each opening parenthesis to an opening brace and each closing
parenthesis to a closing brace while fixing everything else. -/
theorem cleanString_no_delims_no_ws (s : String) :
    ((cleanString s).data.all fun c => !(c == '(' || c == ')' || isPyWs c)) = true ∧
      (cleanString s).data = (removeNonTerminalLabels s).data.map parenSwap := by
  have hmap : (cleanString s).data = (removeLabelsL s.data).map parenSwap := by
    show cleanStringL s.data = _
    exact pyReplace_pair_eq_map_parenSwap (removeLabelsL s.data)
  constructor
  · rw [List.all_eq_true]
    intro c hc
    rw [hmap] at hc
    obtain ⟨a, ha, hac⟩ := List.mem_map.mp hc
    have haw : isPyWs a = false := not_ws_of_mem_filterWs (stripLabels s.data) a ha
    subst hac
    by_cases h1 : a = '('
    · subst h1; decide
    · by_cases h2 : a = ')'
      · subst h2; decide
      · have hps : parenSwap a = a := by simp [parenSwap, h1, h2]
        rw [hps]
        simp [h1, h2, haw]
  · exact hmap

/-- C9: parsing the unbalanced input open-paren S space open-paren NP, the
empty input, and an input whose inner opening parenthesis is followed by
another opening parenthesis instead of a label all fail with a FormatError. -/
theorem parse_malformed_fails :
    isFormatErr (parseText "(S (NP") = true ∧ isFormatErr (parseText "") = true ∧
      isFormatErr (parseText "((DT a))") = true := by decide

/-- C2 counterexample: the depth value given by the string bogus is neither
the unbounded sentinel full nor a non-negative integer, yet validation does
not reject it, and it is then installed as the max_depth for rendering, so
tree work proceeds. -/
theorem string_depth_passes_validation :
    calcTedValidate (PyVal.str "s1") (PyVal.str "s2") (PyVal.str "bogus") = none ∧
      maxDepthChoice (PyVal.str "bogus") = some (PyVal.str "bogus") := by decide

theorem calcTedValidate_typeErr (s₁ s₂ d : PyVal) (e : TedErr)
    (h : calcTedValidate s₁ s₂ d = some e) : e.isTypeErr = true := by
  unfold calcTedValidate at h
  split at h
  · injection h with h
    rw [← h]
    rfl
  · split at h
    · injection h with h
      rw [← h]
      rfl
    · exact Option.noConfusion h

theorem calcTedValidate_none_iff (s₁ s₂ d : PyVal) :
    calcTedValidate s₁ s₂ d = none ↔
      (s₁.isStr = true ∧ s₂.isStr = true ∧
        ((∃ s, d = PyVal.str s) ∨ ∃ n, d = PyVal.int n ∧ 0 ≤ n)) := by
  unfold calcTedValidate
  cases s₁ <;> cases s₂ <;>
    simp [PyVal.isStr] <;>
    cases d with
    | str s => simp [PyVal.isStr, PyVal.isInt, PyVal.isNegInt]
    | int n =>
      simp [PyVal.isStr, PyVal.isInt, PyVal.isNegInt]
      try omega
    | other => simp [PyVal.isStr, PyVal.isInt, PyVal.isNegInt]

/-- C2 amended: the distance operation rejects, with a TypeError raised
before any tree work, exactly the depth arguments that are neither str nor
int together with the negative int ones; every str value of depth, including
strings other than the sentinel full, passes validation. -/
theorem calcTedValidate_characterization :
    ∀ s₁ s₂ d, (calcTedValidate s₁ s₂ d = none ↔
        (s₁.isStr = true ∧ s₂.isStr = true ∧
          ((∃ s, d = PyVal.str s) ∨ ∃ n, d = PyVal.int n ∧ 0 ≤ n))) ∧
      ∀ e, calcTedValidate s₁ s₂ d = some e → e.isTypeErr = true :=
  fun s₁ s₂ d =>
    ⟨calcTedValidate_none_iff s₁ s₂ d, fun e he => calcTedValidate_typeErr s₁ s₂ d e he⟩

/-- C2 amended witness: a non-negative integer depth passes validation. -/
theorem calcTedValidate_characterization_witness :
    calcTedValidate (PyVal.str "a") (PyVal.str "b") (PyVal.int 3) = none :=
  ((calcTedValidate_characterization (PyVal.str "a") (PyVal.str "b") (PyVal.int 3)).1).mpr
    ⟨rfl, rfl, Or.inr ⟨3, rfl, by decide⟩⟩

theorem calcTedValidate_isSome_iff (s₁ s₂ d : PyVal) :
    (calcTedValidate s₁ s₂ d).isSome = true ↔
      (s₁.isStr = false ∨ s₂.isStr = false ∨
        (d.isStr = false ∧ d.isInt = false) ∨ ∃ n, d = PyVal.int n ∧ n < 0) := by
  unfold calcTedValidate
  cases s₁ <;> cases s₂ <;>
    simp [PyVal.isStr] <;>
    cases d with
    | str s => simp [PyVal.isStr, PyVal.isInt, PyVal.isNegInt]
    | int n =>
      simp [PyVal.isStr, PyVal.isInt, PyVal.isNegInt]
      try omega
    | other => simp [PyVal.isStr, PyVal.isInt, PyVal.isNegInt]

theorem maxDepth_of_string_ne_full (s : String) (h : s ≠ "full") :
    maxDepthChoice (PyVal.str s) = some (PyVal.str s) ∧
      usesDepthLimited (PyVal.str s) = true := by
  unfold usesDepthLimited maxDepthChoice
  rw [if_neg (by simpa using h)]
  exact ⟨rfl, rfl⟩

/-- C10: the validation of calculate_ted raises a TypeError, and only a
TypeError, exactly when sent1 or sent2 is not a str, or depth is neither str
nor int, or depth is an int below 0; consequently every string value of
depth passes, and every string other than the sentinel full is installed as
the max_depth and routes rendering through the depth-limited renderer. -/
theorem validation_typeErrors_and_string_depth_flow :
    (∀ s₁ s₂ d, (calcTedValidate s₁ s₂ d).isSome = true ↔
        (s₁.isStr = false ∨ s₂.isStr = false ∨
          (d.isStr = false ∧ d.isInt = false) ∨ ∃ n, d = PyVal.int n ∧ n < 0)) ∧
    (∀ s₁ s₂ d e, calcTedValidate s₁ s₂ d = some e → e.isTypeErr = true) ∧
    (∀ s, s ≠ "full" → maxDepthChoice (PyVal.str s) = some (PyVal.str s) ∧
      usesDepthLimited (PyVal.str s) = true) :=
  ⟨calcTedValidate_isSome_iff,
    fun s₁ s₂ d e he => calcTedValidate_typeErr s₁ s₂ d e he,
    maxDepth_of_string_ne_full⟩

/-- C10 witness: a non-sentinel string depth routes through the
depth-limited renderer, and a non-str sent1 is rejected. -/
theorem validation_typeErrors_and_string_depth_flow_witness :
    usesDepthLimited (PyVal.str "three") = true ∧
      (calcTedValidate PyVal.other (PyVal.str "y") (PyVal.int 0)).isSome = true :=
  ⟨(validation_typeErrors_and_string_depth_flow.2.2 "three" (by decide)).2,
    (validation_typeErrors_and_string_depth_flow.1 PyVal.other (PyVal.str "y")
      (PyVal.int 0)).mpr (Or.inl rfl)⟩

theorem PForest.size_append : ∀ F G : PForest, (F.append G).size = F.size + G.size
  | .nil, G => by simp [PForest.append, PForest.size]
  | .cons t ts, G => by
    simp only [PForest.append, PForest.size, PForest.size_append ts G]
    omega

theorem PTree.size_pos : ∀ t : PTree, 1 ≤ t.size := by
  intro t
  cases t with
  | node l cs => simp [PTree.size, PForest.size]

theorem PForest.eq_nil_of_size_eq_zero : ∀ F : PForest, F.size = 0 → F = PForest.nil := by
  intro F h
  cases F with
  | nil => rfl
  | cons t ts =>
    exfalso
    have := PTree.size_pos t
    simp [PForest.size] at h
    omega

theorem fdistFuel_congr : ∀ f₁ f₂ F G, F.size + G.size ≤ f₁ → F.size + G.size ≤ f₂ →
    fdistFuel f₁ F G = fdistFuel f₂ F G := by
  intro f₁
  induction f₁ with
  | zero =>
    intro f₂ F G h₁ _
    have hF : F = PForest.nil := PForest.eq_nil_of_size_eq_zero F (by omega)
    have hG : G = PForest.nil := PForest.eq_nil_of_size_eq_zero G (by omega)
    subst hF; subst hG
    cases f₂ <;> rfl
  | succ f ih =>
    intro f₂ F G h₁ h₂
    cases f₂ with
    | zero =>
      have hF : F = PForest.nil := PForest.eq_nil_of_size_eq_zero F (by omega)
      have hG : G = PForest.nil := PForest.eq_nil_of_size_eq_zero G (by omega)
      subst hF; subst hG
      rfl
    | succ g =>
      cases F with
      | nil =>
        cases G with
        | nil => rfl
        | cons t ts =>
          cases t with
          | node l cs =>
            show fdistFuel f PForest.nil (cs.append ts) + 1 =
              fdistFuel g PForest.nil (cs.append ts) + 1
            have hsz : (cs.append ts).size = cs.size + ts.size := PForest.size_append cs ts
            have hGsz : (PForest.cons (PTree.node l cs) ts).size = 1 + cs.size + ts.size := by
              simp [PForest.size, PTree.size]; try omega
            rw [ih g PForest.nil (cs.append ts) (by simp [PForest.size]; try omega)
              (by simp [PForest.size]; try omega)]
      | cons t ts =>
        cases t with
        | node l cs =>
          have hFsz : (PForest.cons (PTree.node l cs) ts).size = 1 + cs.size + ts.size := by
            simp [PForest.size, PTree.size]; try omega
          cases G with
          | nil =>
            show fdistFuel f (cs.append ts) PForest.nil + 1 =
              fdistFuel g (cs.append ts) PForest.nil + 1
            have hsz : (cs.append ts).size = cs.size + ts.size := PForest.size_append cs ts
            rw [ih g (cs.append ts) PForest.nil (by simp [PForest.size]; try omega)
              (by simp [PForest.size]; try omega)]
          | cons u us =>
            cases u with
            | node m ds =>
              have hGsz : (PForest.cons (PTree.node m ds) us).size = 1 + ds.size + us.size := by
                simp [PForest.size, PTree.size]; try omega
              show
                min (fdistFuel f (cs.append ts) (PForest.cons (PTree.node m ds) us) + 1)
                  (min (fdistFuel f (PForest.cons (PTree.node l cs) ts) (ds.append us) + 1)
                    (fdistFuel f cs ds + fdistFuel f ts us + rcost l m)) =
                min (fdistFuel g (cs.append ts) (PForest.cons (PTree.node m ds) us) + 1)
                  (min (fdistFuel g (PForest.cons (PTree.node l cs) ts) (ds.append us) + 1)
                    (fdistFuel g cs ds + fdistFuel g ts us + rcost l m))
              have e₁ := ih g (cs.append ts) (PForest.cons (PTree.node m ds) us)
                (by rw [PForest.size_append]; omega) (by rw [PForest.size_append]; omega)
              have e₂ := ih g (PForest.cons (PTree.node l cs) ts) (ds.append us)
                (by rw [PForest.size_append]; omega) (by rw [PForest.size_append]; omega)
              have e₃ := ih g cs ds (by omega) (by omega)
              have e₄ := ih g ts us (by omega) (by omega)
              rw [e₁, e₂, e₃, e₄]

theorem fdist_eq_fuel (f : Nat) (F G : PForest) (h : F.size + G.size ≤ f) :
    fdistFuel f F G = fdist F G :=
  fdistFuel_congr f (F.size + G.size) F G h (Nat.le_refl _)

theorem fdist_nil_nil : fdist PForest.nil PForest.nil = 0 := rfl

theorem fdist_cons_nil (l : String) (cs F : PForest) :
    fdist (PForest.cons (PTree.node l cs) F) PForest.nil =
      fdist (cs.append F) PForest.nil + 1 := by
  have hsz : (PForest.cons (PTree.node l cs) F).size + PForest.nil.size =
      (cs.size + F.size) + 1 := by
    simp [PForest.size, PTree.size]; try omega
  show fdistFuel ((PForest.cons (PTree.node l cs) F).size + PForest.nil.size) _ _ = _
  rw [hsz]
  show fdistFuel (cs.size + F.size) (cs.append F) PForest.nil + 1 = _
  rw [fdist_eq_fuel (cs.size + F.size) (cs.append F) PForest.nil
    (by rw [PForest.size_append]; simp [PForest.size])]

theorem fdist_nil_cons (l : String) (cs G : PForest) :
    fdist PForest.nil (PForest.cons (PTree.node l cs) G) =
      fdist PForest.nil (cs.append G) + 1 := by
  have hsz : PForest.nil.size + (PForest.cons (PTree.node l cs) G).size =
      (cs.size + G.size) + 1 := by
    simp [PForest.size, PTree.size]; try omega
  show fdistFuel (PForest.nil.size + (PForest.cons (PTree.node l cs) G).size) _ _ = _
  rw [hsz]
  show fdistFuel (cs.size + G.size) PForest.nil (cs.append G) + 1 = _
  rw [fdist_eq_fuel (cs.size + G.size) PForest.nil (cs.append G)
    (by rw [PForest.size_append]; simp [PForest.size])]

theorem fdist_cons_cons (l₁ l₂ : String) (c₁ c₂ F G : PForest) :
    fdist (PForest.cons (PTree.node l₁ c₁) F) (PForest.cons (PTree.node l₂ c₂) G) =
      min (fdist (c₁.append F) (PForest.cons (PTree.node l₂ c₂) G) + 1)
        (min (fdist (PForest.cons (PTree.node l₁ c₁) F) (c₂.append G) + 1)
          (fdist c₁ c₂ + fdist F G + rcost l₁ l₂)) := by
  have hsz : (PForest.cons (PTree.node l₁ c₁) F).size +
      (PForest.cons (PTree.node l₂ c₂) G).size =
      (c₁.size + F.size + (1 + c₂.size + G.size)) + 1 := by
    simp [PForest.size, PTree.size]; try omega
  show fdistFuel _ _ _ = _
  rw [hsz]
  show
    min (fdistFuel (c₁.size + F.size + (1 + c₂.size + G.size)) (c₁.append F)
        (PForest.cons (PTree.node l₂ c₂) G) + 1)
      (min (fdistFuel (c₁.size + F.size + (1 + c₂.size + G.size))
          (PForest.cons (PTree.node l₁ c₁) F) (c₂.append G) + 1)
        (fdistFuel (c₁.size + F.size + (1 + c₂.size + G.size)) c₁ c₂ +
          fdistFuel (c₁.size + F.size + (1 + c₂.size + G.size)) F G + rcost l₁ l₂)) = _
  rw [fdist_eq_fuel _ (c₁.append F) (PForest.cons (PTree.node l₂ c₂) G)
      (by rw [PForest.size_append]; simp [PForest.size, PTree.size]; try omega),
    fdist_eq_fuel _ (PForest.cons (PTree.node l₁ c₁) F) (c₂.append G)
      (by rw [PForest.size_append]; simp [PForest.size, PTree.size]; try omega),
    fdist_eq_fuel _ c₁ c₂ (by omega),
    fdist_eq_fuel _ F G (by omega)]

theorem rcost_self (l : String) : rcost l l = 0 := by
  simp [rcost]

theorem rcost_comm (a b : String) : rcost a b = rcost b a := by
  unfold rcost
  by_cases h : a = b
  · subst h; rfl
  · rw [if_neg h, if_neg (fun hb => h hb.symm)]

theorem fdist_self : ∀ F : PForest, fdist F F = 0 := by
  intro F
  generalize hn : F.size = n
  induction n using Nat.strong_induction_on generalizing F with
  | _ n ih =>
    cases F with
    | nil => exact fdist_nil_nil
    | cons t ts =>
      cases t with
      | node l cs =>
        subst hn
        have hszc : (PForest.cons (PTree.node l cs) ts).size = 1 + cs.size + ts.size := by
          simp [PForest.size, PTree.size]; try omega
        have hcs : fdist cs cs = 0 := ih cs.size (by omega) cs rfl
        have hts : fdist ts ts = 0 := ih ts.size (by omega) ts rfl
        rw [fdist_cons_cons, hcs, hts, rcost_self]
        simp

theorem fdist_comm : ∀ F G : PForest, fdist F G = fdist G F := by
  intro F G
  generalize hn : F.size + G.size = n
  induction n using Nat.strong_induction_on generalizing F G with
  | _ n ih =>
    cases F with
    | nil =>
      cases G with
      | nil => rfl
      | cons u us =>
        cases u with
        | node m ds =>
          subst hn
          have hszg : (PForest.cons (PTree.node m ds) us).size = 1 + ds.size + us.size := by
            simp [PForest.size, PTree.size]; try omega
          have hsza : (ds.append us).size = ds.size + us.size := PForest.size_append ds us
          rw [fdist_nil_cons, fdist_cons_nil,
            ih (PForest.nil.size + (ds.append us).size)
              (by omega) PForest.nil (ds.append us) rfl]
    | cons t ts =>
      cases t with
      | node l cs =>
        subst hn
        have hszf : (PForest.cons (PTree.node l cs) ts).size = 1 + cs.size + ts.size := by
          simp [PForest.size, PTree.size]; try omega
        cases G with
        | nil =>
          have hsza : (cs.append ts).size = cs.size + ts.size := PForest.size_append cs ts
          rw [fdist_cons_nil, fdist_nil_cons,
            ih ((cs.append ts).size + PForest.nil.size)
              (by omega) (cs.append ts) PForest.nil rfl]
        | cons u us =>
          cases u with
          | node m ds =>
            have hszg : (PForest.cons (PTree.node m ds) us).size = 1 + ds.size + us.size := by
              simp [PForest.size, PTree.size]; try omega
            have hsza : (cs.append ts).size = cs.size + ts.size := PForest.size_append cs ts
            have hszb : (ds.append us).size = ds.size + us.size := PForest.size_append ds us
            have e₁ := ih ((cs.append ts).size + (PForest.cons (PTree.node m ds) us).size)
              (by omega) (cs.append ts) (PForest.cons (PTree.node m ds) us) rfl
            have e₂ := ih ((PForest.cons (PTree.node l cs) ts).size + (ds.append us).size)
              (by omega) (PForest.cons (PTree.node l cs) ts) (ds.append us) rfl
            have e₃ := ih (cs.size + ds.size) (by omega) cs ds rfl
            have e₄ := ih (ts.size + us.size) (by omega) ts us rfl
            have er := rcost_comm l m
            rw [fdist_cons_cons, fdist_cons_cons]
            omega

theorem fdist_del_le (l : String) (cs F G : PForest) :
    fdist (PForest.cons (PTree.node l cs) F) G ≤ fdist (cs.append F) G + 1 := by
  cases G with
  | nil =>
    rw [fdist_cons_nil]
  | cons u us =>
    cases u with
    | node m ds =>
      rw [fdist_cons_cons]
      exact min_le_left _ _

theorem fdist_ins_le (l : String) (cs F G : PForest) :
    fdist F (PForest.cons (PTree.node l cs) G) ≤ fdist F (cs.append G) + 1 := by
  cases F with
  | nil =>
    rw [fdist_nil_cons]
  | cons t ts =>
    cases t with
    | node m ds =>
      rw [fdist_cons_cons]
      exact le_trans (min_le_right _ _) (min_le_left _ _)

theorem fdist_sub_le (l₁ l₂ : String) (c₁ c₂ F G : PForest) :
    fdist (PForest.cons (PTree.node l₁ c₁) F) (PForest.cons (PTree.node l₂ c₂) G) ≤
      fdist c₁ c₂ + fdist F G + rcost l₁ l₂ := by
  rw [fdist_cons_cons]
  exact le_trans (min_le_right _ _) (min_le_right _ _)

theorem editScript_fdist_le {F G : PForest} {c : Nat} (h : EditScript F G c) :
    fdist F G ≤ c := by
  induction h with
  | nil => exact Nat.le_of_eq fdist_nil_nil
  | del h ih => exact le_trans (fdist_del_le _ _ _ _) (by omega)
  | ins h ih => exact le_trans (fdist_ins_le _ _ _ _) (by omega)
  | sub h₁ h₂ ih₁ ih₂ => exact le_trans (fdist_sub_le _ _ _ _ _ _) (by omega)

theorem editScript_reaches : ∀ F G : PForest, EditScript F G (fdist F G) := by
  intro F G
  generalize hn : F.size + G.size = n
  induction n using Nat.strong_induction_on generalizing F G with
  | _ n ih =>
    cases F with
    | nil =>
      cases G with
      | nil =>
        rw [fdist_nil_nil]
        exact EditScript.nil
      | cons u us =>
        cases u with
        | node m ds =>
          subst hn
          have hszg : (PForest.cons (PTree.node m ds) us).size = 1 + ds.size + us.size := by
            simp [PForest.size, PTree.size]; try omega
          have hsza : (ds.append us).size = ds.size + us.size := PForest.size_append ds us
          rw [fdist_nil_cons]
          exact EditScript.ins (ih (PForest.nil.size + (ds.append us).size)
            (by omega) PForest.nil (ds.append us) rfl)
    | cons t ts =>
      cases t with
      | node l cs =>
        subst hn
        have hszf : (PForest.cons (PTree.node l cs) ts).size = 1 + cs.size + ts.size := by
          simp [PForest.size, PTree.size]; try omega
        have hsza : (cs.append ts).size = cs.size + ts.size := PForest.size_append cs ts
        cases G with
        | nil =>
          rw [fdist_cons_nil]
          exact EditScript.del (ih ((cs.append ts).size + PForest.nil.size)
            (by omega) (cs.append ts) PForest.nil rfl)
        | cons u us =>
          cases u with
          | node m ds =>
            have hszg : (PForest.cons (PTree.node m ds) us).size = 1 + ds.size + us.size := by
              simp [PForest.size, PTree.size]; try omega
            have hszb : (ds.append us).size = ds.size + us.size := PForest.size_append ds us
            rw [fdist_cons_cons]
            rcases min_choice (fdist (cs.append ts) (PForest.cons (PTree.node m ds) us) + 1)
              (min (fdist (PForest.cons (PTree.node l cs) ts) (ds.append us) + 1)
                (fdist cs ds + fdist ts us + rcost l m)) with h | h
            · rw [h]
              exact EditScript.del (ih ((cs.append ts).size +
                  (PForest.cons (PTree.node m ds) us).size)
                (by omega) (cs.append ts) (PForest.cons (PTree.node m ds) us) rfl)
            · rw [h]
              rcases min_choice (fdist (PForest.cons (PTree.node l cs) ts) (ds.append us) + 1)
                (fdist cs ds + fdist ts us + rcost l m) with h₂ | h₂
              · rw [h₂]
                exact EditScript.ins (ih ((PForest.cons (PTree.node l cs) ts).size +
                    (ds.append us).size)
                  (by omega) (PForest.cons (PTree.node l cs) ts) (ds.append us) rfl)
              · rw [h₂]
                exact EditScript.sub (ih (cs.size + ds.size) (by omega) cs ds rfl)
                  (ih (ts.size + us.size) (by omega) ts us rfl)

/-- C3: for every pair of trees, the edit distance computed by the engine is
the least cost of any transformation of the first tree into the second in
the ordered-tree edit model with unit insert and delete costs and rename
cost zero on equal labels and one otherwise: it is attained by a
transformation and bounds every transformation from below, hence it is
exact, not an approximation. -/
theorem fdist_exact_minimum (A B : PTree) :
    EditScript (PForest.cons A PForest.nil) (PForest.cons B PForest.nil)
      (fdist (PForest.cons A PForest.nil) (PForest.cons B PForest.nil)) ∧
    ∀ c, EditScript (PForest.cons A PForest.nil) (PForest.cons B PForest.nil) c →
      fdist (PForest.cons A PForest.nil) (PForest.cons B PForest.nil) ≤ c :=
  ⟨editScript_reaches _ _, fun _ h => editScript_fdist_le h⟩

/-- C3 witness: applied to the one-node trees labelled x and y, whose
renaming gives a transformation of cost one, the minimality half bounds the
computed distance by one. -/
theorem fdist_exact_minimum_witness :
    fdist (PForest.cons (PTree.node "x" PForest.nil) PForest.nil)
      (PForest.cons (PTree.node "y" PForest.nil) PForest.nil) ≤ 1 :=
  (fdist_exact_minimum (PTree.node "x" PForest.nil) (PTree.node "y" PForest.nil)).2 1
    (by
      have h := @EditScript.sub "x" "y" PForest.nil PForest.nil PForest.nil PForest.nil 0 0
        EditScript.nil EditScript.nil
      simpa [rcost] using h)

/-- C4: the distance of a tree against itself is zero, both at the engine
level for every engine tree and through the depth-limited pipeline for the
same parsed sentence tree at every depth. -/
theorem distance_self_zero :
    (∀ T : PTree, fdist (PForest.cons T PForest.nil) (PForest.cons T PForest.nil) = 0) ∧
    ∀ (t : NTree) (d : Nat), (tedDepthLimited t t d).getD 0 = 0 := by
  constructor
  · intro T
    exact fdist_self _
  · intro t d
    cases h₁ : NTree.nB t (some d) 0 with
    | none => simp [tedDepthLimited, h₁]
    | some s =>
      cases h₂ : skelParse (cleanString s) with
      | none => simp [tedDepthLimited, h₁, h₂]
      | some p => simp [tedDepthLimited, h₁, h₂, fdist_self]

/-- C5: the distance is symmetric under the default unit cost model, both at
the engine level and through the depth-limited pipeline. -/
theorem distance_symmetric :
    (∀ A B : PTree, fdist (PForest.cons A PForest.nil) (PForest.cons B PForest.nil) =
      fdist (PForest.cons B PForest.nil) (PForest.cons A PForest.nil)) ∧
    ∀ (t₁ t₂ : NTree) (d : Nat), tedDepthLimited t₁ t₂ d = tedDepthLimited t₂ t₁ d := by
  constructor
  · intro A B
    exact fdist_comm _ _
  · intro t₁ t₂ d
    cases h₁ : NTree.nB t₁ (some d) 0 with
    | none => cases h₂ : NTree.nB t₂ (some d) 0 <;> simp [tedDepthLimited, h₁, h₂]
    | some s₁ =>
      cases h₂ : NTree.nB t₂ (some d) 0 with
      | none => simp [tedDepthLimited, h₁, h₂]
      | some s₂ =>
        cases p₁ : skelParse (cleanString s₁) with
        | none =>
          cases p₂ : skelParse (cleanString s₂) <;> simp [tedDepthLimited, h₁, h₂, p₁, p₂]
        | some q₁ =>
          cases p₂ : skelParse (cleanString s₂) with
          | none => simp [tedDepthLimited, h₁, h₂, p₁, p₂]
          | some q₂ =>
            simp [tedDepthLimited, h₁, h₂, p₁, p₂,
              fdist_comm (PForest.cons q₁ PForest.nil) (PForest.cons q₂ PForest.nil)]

theorem NTree.sizeN_pos : ∀ t : NTree, 1 ≤ t.sizeN := by
  intro t
  cases t with
  | leaf s => simp [NTree.sizeN]
  | node l cs => simp [NTree.sizeN]

theorem nB_aux : ∀ n : Nat,
    (∀ t : NTree, 2 * t.sizeN ≤ n → ∀ cur d₁ d₂ : Nat, cur ≤ d₁ → cur + t.height ≤ d₁ + 2 →
      cur ≤ d₂ → cur + t.height ≤ d₂ + 2 → t.nB (some d₁) cur = t.nB (some d₂) cur) ∧
    (∀ ts : NForest, 2 * ts.sizeN + 1 ≤ n → ∀ cur d₁ d₂ : Nat, cur ≤ d₁ →
      cur + ts.heightMax ≤ d₁ + 2 → cur ≤ d₂ → cur + ts.heightMax ≤ d₂ + 2 →
      NForest.nBKids ts (some d₁) cur = NForest.nBKids ts (some d₂) cur) := by
  intro n
  induction n using Nat.strong_induction_on with
  | _ n ih =>
    constructor
    · intro t hsz cur d₁ d₂ hc₁ hh₁ hc₂ hh₂
      have e₁ : truncates (some d₁) cur = false := by simp [truncates]; omega
      have e₂ : truncates (some d₂) cur = false := by simp [truncates]; omega
      cases t with
      | leaf s => simp [NTree.nB, e₁, e₂]
      | node l cs =>
        simp only [NTree.nB, e₁, e₂, Bool.false_or]
        by_cases hnil : cs.isNil = true
        · rw [if_pos hnil, if_pos hnil]
        · rw [if_neg hnil, if_neg hnil]
          by_cases hh : 2 < (NTree.node l cs).height
          · have hhm : 2 ≤ cs.heightMax := by
              simp [NTree.height] at hh
              omega
            have hht : (NTree.node l cs).height = 1 + cs.heightMax := by
              simp [NTree.height]
            have hszn : (NTree.node l cs).sizeN = 1 + cs.sizeN := by
              simp [NTree.sizeN]
            have hkids := (ih (2 * cs.sizeN + 1) (by omega)).2 cs (le_refl _)
              (cur + 1) d₁ d₂ (by omega) (by omega) (by omega) (by omega)
            rw [if_pos hh, if_pos hh, hkids]
          · rw [if_neg hh, if_neg hh]
    · intro ts hsz cur d₁ d₂ hc₁ hh₁ hc₂ hh₂
      cases ts with
      | nil => rfl
      | cons t ts₂ =>
        have hhm : NForest.heightMax (NForest.cons t ts₂) = max t.height ts₂.heightMax := by
          simp [NForest.heightMax]
        have hszc : NForest.sizeN (NForest.cons t ts₂) = t.sizeN + ts₂.sizeN := by
          simp [NForest.sizeN]
        have htp := NTree.sizeN_pos t
        have hmax₁ : t.height ≤ NForest.heightMax (NForest.cons t ts₂) := by
          rw [hhm]; exact Nat.le_max_left _ _
        have hmax₂ : ts₂.heightMax ≤ NForest.heightMax (NForest.cons t ts₂) := by
          rw [hhm]; exact Nat.le_max_right _ _
        have h₁ := (ih (2 * t.sizeN) (by omega)).1 t (le_refl _) cur d₁ d₂
          hc₁ (by omega) hc₂ (by omega)
        have h₂ := (ih (2 * ts₂.sizeN + 1) (by omega)).2 ts₂ (le_refl _) cur d₁ d₂
          hc₁ (by omega) hc₂ (by omega)
        simp only [NForest.nBKids]
        rw [h₁, h₂]

/-- C6: the depth-limited serialization is unchanged between any two depth
bounds that both dominate the height of the tree: beyond the actual height,
truncation never fires and the rendering stabilizes. -/
theorem nB_stable_beyond_height (t : NTree) (d₁ d₂ : Nat)
    (h₁ : t.height ≤ d₁) (h₂ : t.height ≤ d₂) :
    t.nB (some d₁) 0 = t.nB (some d₂) 0 :=
  (nB_aux (2 * t.sizeN)).1 t (le_refl _) 0 d₁ d₂ (Nat.zero_le _) (by omega)
    (Nat.zero_le _) (by omega)

/-- C6 witness: the example tree has height 4, and rendering it with bounds
5 and 9 agrees. -/
theorem nB_stable_beyond_height_witness :
    exTreeB.height ≤ 5 ∧ exTreeB.height ≤ 9 ∧
      exTreeB.nB (some 5) 0 = exTreeB.nB (some 9) 0 :=
  ⟨by decide, by decide, nB_stable_beyond_height exTreeB 5 9 (by decide) (by decide)⟩

/-- C1 counterexample: at depth 0 the renderer does not collapse the nodes
past the bound into leaves carrying their subtree tokens: both example trees
render as the bare string open-paren S space close-paren with the tokens a,
b and c gone, the skeleton of that string is the empty brace pair on both
sides, and the pipeline distance is 0, not 1. -/
theorem depth0_no_collapse_distance_zero :
    NTree.nB exTreeB (some 0) 0 = some "(S )" ∧
      NTree.nB exTreeC (some 0) 0 = some "(S )" ∧
      cleanString "(S )" = "\x7b\x7d" ∧
      tedDepthLimited exTreeB exTreeC 0 = some 0 := by decide

/-- C1 corrected: any node strictly past max_depth edges from the root
contributes the empty string to the serialization, so its subtree is
omitted rather than collapsed into a leaf; consequently at depth 0 the two
example trees both render as the root label with empty content, their
skeletons coincide, and the computed distance is 0. -/
theorem depth_truncation_drops_subtrees :
    (∀ (t : NTree) (d cur : Nat), d < cur → t.nB (some d) cur = some "") ∧
      NTree.nB exTreeB (some 0) 0 = some "(S )" ∧
      NTree.nB exTreeC (some 0) 0 = some "(S )" ∧
      tedDepthLimited exTreeB exTreeB 0 = some 0 ∧
      tedDepthLimited exTreeB exTreeC 0 = some 0 := by
  constructor
  · intro t d cur h
    have e : truncates (some d) cur = true := by simp [truncates]; omega
    cases t with
    | leaf s => simp [NTree.nB, e]
    | node l cs => simp [NTree.nB, e]
  · exact ⟨by decide, by decide, by decide, by decide⟩

/-- C1 corrected witness: the NP subtree of the first example tree sits one
edge below the root, and at max_depth 0 it renders as the empty string. -/
theorem depth_truncation_drops_subtrees_witness :
    NTree.nB (NTree.node "NP" (NForest.cons (NTree.node "DT"
        (NForest.cons (NTree.leaf "a") NForest.nil)) NForest.nil)) (some 0) 1 = some "" :=
  depth_truncation_drops_subtrees.1 _ 0 1 (by decide)
